import Mathlib

/-!
Verification of the natural-language specification of the `BST` repository
(`src/BST.js`, `src/unnamed/part_000`) against a shallow embedding of the
JavaScript source in Lean 4.

The repository implements a binary search tree class `BST`.  A class
instance is a node with fields `key` (a JavaScript number), `value`
(arbitrary), `left` and `right` (a `BST` instance or `null`).  The tree
handle held by the caller is itself the root node, so an "empty tree"
is not representable: the closest thing is a `null` reference, on which
no method can be invoked.

Embedding choices:
* JS numeric keys are modelled as `Int` (the spec only uses their total
  order; `<` and `===` on numbers become `<` and `=` on `Int`).
* JS runtime values are modelled by `JSVal` (`undefined`, `null`,
  numbers, strings); `undefined` is the "not found" result of
  `getValue`/`update`.
* `null` children are the `nil` constructor of the `BST` inductive; a
  class instance corresponds to a tree of the form `BST.node ..`.
* mutating methods become functions returning the new tree; methods
  that `throw` return `Except String` carrying the thrown message.
-/

/-- Model of the JavaScript values that occur in the repository:
`undefined`, `null`, numbers and strings.  `undefined` is the sentinel
returned by `getValue`/`update` when a key is not found. -/
inductive JSVal where
  | undef : JSVal
  | null : JSVal
  | num : Int → JSVal
  | str : String → JSVal
  deriving DecidableEq, Repr

/-- `typeof x === "number"` for a modelled JS value. -/
def JSVal.isNumber : JSVal → Bool
  | .num _ => true
  | _ => false

/-- A `BST` class instance or `null`: `nil` models the JS `null`
reference, `node key value left right` models an instance with those
four fields (source: the `BST` constructor, `src/BST.js` lines 83-93).
A tree handle held by a caller is always a `node`. -/
inductive BST where
  | nil : BST
  | node : Int → JSVal → BST → BST → BST
  deriving DecidableEq, Repr

namespace BST

/-- `add(node)` (`src/BST.js` lines 101-144), after the argument shape
check has passed, with the argument node's fields `nk`/`nv`/`nl`/`nr`.
The source loop descends comparing `node.key` with `curr.key`, throws
on equality, and attaches the argument node at the first missing child;
the recursion below is the same computation (the `curr.left === null`
test before descending is the `nil` base case).  The first revision of
the class (`src/BST.js` lines 32-66, `push`) is literally this
recursion. -/
def add : BST → Int → JSVal → BST → BST → Except String BST
  | .nil, nk, nv, nl, nr => .ok (.node nk nv nl nr)
  | .node k v l r, nk, nv, nl, nr =>
    if k = nk then .error (toString nk ++ " is not a unique key.")
    else if nk < k then
      match add l nk nv nl nr with
      | .ok l' => .ok (.node k v l' r)
      | .error e => .error e
    else
      match add r nk nv nl nr with
      | .ok r' => .ok (.node k v l r')
      | .error e => .error e

/-- The spec-level `insert(key, value)`: `tree.add(n)` where `n` is a
fresh well-formed node with key `k`, value `v` and `null` children. -/
def insert (t : BST) (k : Int) (v : JSVal) : Except String BST :=
  add t k v .nil .nil

/-- The `BST` constructor (`src/BST.js` lines 83-93): a fresh node with
`null` children.  A JS default parameter `value=null` replaces an
`undefined` argument (or a missing one) by `null`. -/
def mkBST (k : Int) (v : JSVal) : BST :=
  .node k (if v = .undef then .null else v) .nil .nil

/-- `getValue(key)` (`src/BST.js` lines 152-188): descend comparing
keys; return the value on a key match, `undefined` when the required
child is `null`.  Recursing into `nil` returns `undefined`, which is
the source's `curr.left === null` / `curr.right === null` exit. -/
def getValue : BST → Int → JSVal
  | .nil, _ => .undef
  | .node k v l r, key =>
    if k = key then v
    else if key < k then getValue l key
    else getValue r key

/-- `update(key, newValue)` (`src/BST.js` lines 196-234): same descent
as `getValue`; on a match replace the node's value and return the old
one, otherwise return `undefined` and leave the tree as it was. -/
def update : BST → Int → JSVal → JSVal × BST
  | .nil, _, _ => (.undef, .nil)
  | .node k v l r, key, nv =>
    if k = key then (v, .node k nv l r)
    else if key < k then
      ((update l key nv).1, .node k v (update l key nv).2 r)
    else
      ((update r key nv).1, .node k v l (update r key nv).2)

/-- `toArray()` (`src/BST.js` lines 243-266): in-order traversal
collecting values. -/
def toArray : BST → List JSVal
  | .nil => []
  | .node _ v l r => toArray l ++ v :: toArray r

/-- `toKVArray()` (`src/BST.js` lines 275-298): in-order traversal
collecting `{key, value}` pairs (the spec's `toSortedPairs`). -/
def toKVArray : BST → List (Int × JSVal)
  | .nil => []
  | .node k v l r => toKVArray l ++ (k, v) :: toKVArray r

/-- `getKeys()` (`src/BST.js` lines 306-329): in-order traversal
collecting keys (the spec's `toSortedKeys`). -/
def getKeys : BST → List Int
  | .nil => []
  | .node k _ l r => getKeys l ++ k :: getKeys r

/-- The in-order successor search of `delete` (`src/BST.js` lines
409-415): the leftmost `(key, value)` pair of a subtree.  Only applied
to non-`nil` trees (`match.right`, known non-null in Case 2). -/
def leftmostKV : BST → Int × JSVal
  | .nil => (0, .undef)
  | .node k v .nil _ => (k, v)
  | .node _ _ (.node lk lv ll lr) _ => leftmostKV (.node lk lv ll lr)

/-- The successor extraction of `delete` (`src/BST.js` lines 422-435):
the subtree with its leftmost node replaced by that node's right child
(`match.right = successor.right` when the successor is the immediate
right child, else `successorParent.left = successor.right`). -/
def removeLeftmost : BST → BST
  | .nil => .nil
  | .node _ _ .nil r => r
  | .node k v (.node lk lv ll lr) r => .node k v (removeLeftmost (.node lk lv ll lr)) r

/-- The `{key, value}` pair of a node; used for the successor that the
root is transformed into in `delete`'s root special case. -/
def rootKV : BST → Int × JSVal
  | .nil => (0, .undef)
  | .node k v _ _ => (k, v)

/-- `delete(key)` below the root (`src/BST.js` lines 341-444, the
branch where `matchParent !== null`): descend tracking the parent; a
`null` child reference before a match raises inside the loop and is
caught, yielding `null` ("not found", modelled as `none`).  On a match
(`match`, with parent link rewritten through `matchParent[relation]`,
where `relation` is the side the descent took):
* `match.left === null`: the parent's link is replaced by
  `match.right` (Case 1, successor `match.right`);
* otherwise `match.right === null`: replaced by `match.left`;
* both children present (Case 2): the in-order successor (leftmost of
  `match.right`) is extracted and its key/value copied into `match`.
The returned pair is `match`'s key/value, captured after the parent
rewrite in Case 1 (which does not touch `match`) and before the
key/value overwrite in Case 2 — the original pair in both cases.
`spliceKV` is that per-match case analysis: it yields the returned
pair together with the subtree that replaces the matched node. -/
def spliceKV (k : Int) (v : JSVal) (l r : BST) : (Int × JSVal) × BST :=
  match l, r with
  | .nil, _ => ((k, v), r)
  | .node .., .nil => ((k, v), l)
  | .node .., .node .. =>
    ((k, v), .node (leftmostKV r).1 (leftmostKV r).2 l (removeLeftmost r))

/-- The descent of `delete` below the root (`src/BST.js` lines
350-367): track the parent, report `none` when a `null` child is hit
before a match (the caught exception), and splice the matched node via
`spliceKV`. -/
def deleteSub : BST → Int → Option ((Int × JSVal) × BST)
  | .nil, _ => none
  | .node k v l r, key =>
    if k = key then some (spliceKV k v l r)
    else if key < k then
      match deleteSub l key with
      | none => none
      | some (p, l') => some (p, .node k v l' r)
    else
      match deleteSub r key with
      | none => none
      | some (p, r') => some (p, .node k v l r')

/-- The root-match branch of `delete` (`matchParent === null`,
`src/BST.js` lines 374-440 with `match === this`), on a root with key
`k`, value `v` and children `l`, `r`:
* both children `null`: `throw new Error("Deleting root node when no
  other nodes exist is undefined.")` (line 386);
* exactly one child: the root node is overwritten with the child's
  key/value/left/right (lines 389-392), so the tree becomes that child
  subtree, and `matchData` is captured only afterwards (line 403) — the
  returned pair is the child's (the successor's), not the deleted
  root's;
* two children: Case 2 (lines 407-440), pair captured before the
  key/value overwrite — the original `(k, v)`. -/
def deleteRoot (k : Int) (v : JSVal) (l r : BST) :
    Except String (Option (Int × JSVal) × BST) :=
  match l, r with
  | .nil, .nil => .error "Deleting root node when no other nodes exist is undefined."
  | .nil, .node .. => .ok (some (rootKV r), r)
  | .node .., .nil => .ok (some (rootKV l), l)
  | .node .., .node .. =>
    .ok (some (k, v), .node (leftmostKV r).1 (leftmostKV r).2 l (removeLeftmost r))

/-- `delete(key)` (`src/BST.js` lines 341-444).  The handle `this` is
never `null` in JS, so the `nil` case is unreachable; it is given the
"not found" result.  A root-key match is `deleteRoot`, anything below
the root is `deleteSub`. -/
def delete (t : BST) (key : Int) : Except String (Option (Int × JSVal) × BST) :=
  match t with
  | .nil => .ok (none, .nil)
  | .node k v l r =>
    if k = key then deleteRoot k v l r
    else if key < k then
      match deleteSub l key with
      | none => .ok (none, .node k v l r)
      | some (p, l') => .ok (some p, .node k v l' r)
    else
      match deleteSub r key with
      | none => .ok (none, .node k v l r)
      | some (p, r') => .ok (some p, .node k v l r')

/-- `balance()`'s recursive helper `balanceHelper(first, last)`
(`src/BST.js` lines 473-491) over the sorted pairs array.  Indices are
JS numbers, here `Int` (the top-level call passes `last = length - 1`,
which is `-1` on an empty array).  For `first ≤ last` the midpoint is
`Math.ceil((last - first) / 2) + first`; since `last - first ≥ 0`,
`Math.ceil(d / 2) = (d + 1) / 2` in integer division, so the JS
`const m` is `(last - first + 1) / 2 + first`, written out at each
use below. -/
def balanceHelper (sorted : List (Int × JSVal)) (first last : Int) : BST :=
  if first > last then .nil
  else
    .node (sorted.getD ((last - first + 1) / 2 + first).toNat (0, .undef)).1
      (sorted.getD ((last - first + 1) / 2 + first).toNat (0, .undef)).2
      (balanceHelper sorted first ((last - first + 1) / 2 + first - 1))
      (balanceHelper sorted ((last - first + 1) / 2 + first + 1) last)
  termination_by (last + 1 - first).toNat
  decreasing_by all_goals omega

/-- `balance()` (`src/BST.js` lines 460-492): export the pairs in
order, then rebuild over the full index range. -/
def balance (t : BST) : BST :=
  balanceHelper (toKVArray t) 0 ((toKVArray t).length - 1)

/-- Number of nodes. -/
def size : BST → Nat
  | .nil => 0
  | .node _ _ l r => size l + size r + 1

/-- Height: number of nodes on a longest root-to-leaf path. -/
def height : BST → Nat
  | .nil => 0
  | .node _ _ l r => max (height l) (height r) + 1

/-- The argument of `add(node)` as seen by the JS shape check
(`src/BST.js` lines 103-106): `null`, `undefined`, or an object whose
own properties `key`/`value`/`left`/`right` may each be present or
absent, the key being an arbitrary JS value. -/
inductive AddArg where
  | jsNull : AddArg
  | jsUndef : AddArg
  | obj : Bool → JSVal → Bool → JSVal → Bool → BST → Bool → BST → AddArg
  deriving DecidableEq, Repr

/-- The validation of `add` (`src/BST.js` lines 103-106): the argument
is not `null`/`undefined`, has own properties `key`, `value`, `left`,
`right`, and `typeof node.key === "number"`. -/
def validNode : AddArg → Bool
  | .jsNull => false
  | .jsUndef => false
  | .obj hasKey key hasValue _ hasLeft _ hasRight _ =>
    hasKey && key.isNumber && hasValue && hasLeft && hasRight

/-- `add(node)` including the shape check: throw `"Only valid for BST
nodes."` on an invalid argument (before any traversal), otherwise run
the descent with the argument node's fields. -/
def addChecked (t : BST) (arg : AddArg) : Except String BST :=
  match arg with
  | .obj true (.num nk) true nv true nl true nr => add t nk nv nl nr
  | _ => .error "Only valid for BST nodes."

/-- `all p t`: every key of `t` satisfies `p`. -/
def all (p : Int → Bool) : BST → Bool
  | .nil => true
  | .node k _ l r => p k && all p l && all p r

/-- Invariant I1 (and with it I2): every node's left subtree holds only
strictly smaller keys and its right subtree only strictly larger ones. -/
def isBST : BST → Bool
  | .nil => true
  | .node k _ l r =>
    all (fun x => decide (x < k)) l && all (fun x => decide (k < x)) r && isBST l && isBST r

/-- One spec-level mutating operation. -/
inductive Op where
  | ins : Int → JSVal → Op
  | del : Int → Op
  deriving DecidableEq, Repr

/-- Run one operation on the tree held by the caller.  A thrown error
(`DuplicateKey`, the childless-root `delete`) leaves the tree exactly
as it was — in the source the throw in both cases happens before any
link is written. -/
def applyOp (t : BST) : Op → BST
  | .ins k v =>
    match insert t k v with
    | .ok t' => t'
    | .error _ => t
  | .del k =>
    match delete t k with
    | .ok (_, t') => t'
    | .error _ => t

/-- Run a sequence of operations. -/
def applyOps (t : BST) (ops : List Op) : BST :=
  ops.foldl applyOp t

/-- Building a tree from a list of pairs: the first pair becomes the
root via the constructor, the rest are inserted with `add`. -/
def buildTree : List (Int × JSVal) → BST
  | [] => .nil
  | (k, v) :: rest => applyOps (.node k v .nil .nil) (rest.map fun p => .ins p.1 p.2)

/-- The tree with every value replaced by `null`: the key skeleton.
Two trees agree on it exactly when they have the same shape and the
same key at every position. -/
def eraseValues : BST → BST
  | .nil => .nil
  | .node k _ l r => .node k .null (eraseValues l) (eraseValues r)

end BST

namespace BST

/-! ### Key-list facts -/

theorem getKeys_eq_map (t : BST) : getKeys t = (toKVArray t).map Prod.fst := by
  induction t with
  | nil => rfl
  | node k v l r ihl ihr => simp [getKeys, toKVArray, ihl, ihr]

theorem all_eq_true {p : Int → Bool} {t : BST} :
    all p t = true ↔ ∀ x ∈ getKeys t, p x = true := by
  induction t with
  | nil => simp [all, getKeys]
  | node k v l r ihl ihr =>
    simp only [all, getKeys, Bool.and_eq_true, ihl, ihr, List.mem_append, List.mem_cons]
    constructor
    · rintro ⟨⟨hk, hl⟩, hr⟩ x hx
      rcases hx with hx | hx | hx
      · exact hl x hx
      · exact hx ▸ hk
      · exact hr x hx
    · intro h
      exact ⟨⟨h k (Or.inr (Or.inl rfl)), fun x hx => h x (Or.inl hx)⟩,
        fun x hx => h x (Or.inr (Or.inr hx))⟩

theorem isBST_node {k : Int} {v : JSVal} {l r : BST} :
    isBST (.node k v l r) = true ↔
      all (fun x => decide (x < k)) l = true ∧ all (fun x => decide (k < x)) r = true ∧
      isBST l = true ∧ isBST r = true := by
  simp [isBST, Bool.and_eq_true, and_assoc]

/-- Invariant I1 makes the in-order key list strictly ascending. -/
theorem sorted_getKeys {t : BST} (h : isBST t = true) :
    List.Sorted (· < ·) (getKeys t) := by
  induction t with
  | nil => simp [getKeys]
  | node k v l r ihl ihr =>
    rcases isBST_node.1 h with ⟨hal, har, hbl, hbr⟩
    rw [getKeys]
    apply List.pairwise_append.2
    refine ⟨ihl hbl, List.pairwise_cons.2 ⟨?_, ihr hbr⟩, ?_⟩
    · intro b hb
      exact of_decide_eq_true (all_eq_true.1 har b hb)
    · intro a ha b hb
      have hak : a < k := of_decide_eq_true (all_eq_true.1 hal a ha)
      rcases List.mem_cons.1 hb with rfl | hb
      · exact hak
      · exact hak.trans (of_decide_eq_true (all_eq_true.1 har b hb))

/-! ### Insertion -/

/-- Proof helper: the tree a successful `add` of a fresh node produces. -/
def insertFn : BST → Int → JSVal → BST
  | .nil, k, v => .node k v .nil .nil
  | .node k0 v0 l r, k, v =>
    if k < k0 then .node k0 v0 (insertFn l k v) r
    else .node k0 v0 l (insertFn r k v)

theorem insert_eq_ok {t : BST} {k : Int} {v : JSVal} (hk : k ∉ getKeys t) :
    insert t k v = .ok (insertFn t k v) := by
  induction t with
  | nil => rfl
  | node k0 v0 l r ihl ihr =>
    simp only [getKeys, List.mem_append, List.mem_cons, not_or] at hk
    obtain ⟨hkl, hkk, hkr⟩ := hk
    simp only [insert, add, insertFn] at *
    rw [if_neg (fun h => hkk h.symm)]
    by_cases hlt : k < k0
    · rw [if_pos hlt, if_pos hlt, ihl hkl]
    · rw [if_neg hlt, if_neg hlt, ihr hkr]

theorem insert_error {t : BST} {k : Int} {v : JSVal} (hb : isBST t = true)
    (hk : k ∈ getKeys t) :
    insert t k v = .error (toString k ++ " is not a unique key.") := by
  induction t with
  | nil => simp [getKeys] at hk
  | node k0 v0 l r ihl ihr =>
    rcases isBST_node.1 hb with ⟨hal, har, hbl, hbr⟩
    simp only [getKeys, List.mem_append, List.mem_cons] at hk
    simp only [insert, add] at *
    by_cases hk0 : k0 = k
    · rw [if_pos hk0]
    · rw [if_neg hk0]
      rcases hk with hkl | rfl | hkr
      · have hlt : k < k0 := of_decide_eq_true (all_eq_true.1 hal k hkl)
        rw [if_pos hlt, ihl hbl hkl]
      · exact absurd rfl hk0
      · have hlt : k0 < k := of_decide_eq_true (all_eq_true.1 har k hkr)
        rw [if_neg (not_lt_of_gt hlt), ihr hbr hkr]

theorem all_insertFn {p : Int → Bool} {t : BST} {k : Int} {v : JSVal}
    (ht : all p t = true) (hk : p k = true) : all p (insertFn t k v) = true := by
  induction t with
  | nil => simp [insertFn, all, hk]
  | node k0 v0 l r ihl ihr =>
    simp only [all, Bool.and_eq_true] at ht
    obtain ⟨⟨hk0, hl⟩, hr⟩ := ht
    by_cases hlt : k < k0 <;>
      simp [insertFn, hlt, all, hk0, ihl hl, ihr hr, hl, hr]

theorem isBST_insertFn {t : BST} {k : Int} {v : JSVal} (hb : isBST t = true)
    (hk : k ∉ getKeys t) : isBST (insertFn t k v) = true := by
  induction t with
  | nil => simp [insertFn, isBST, all]
  | node k0 v0 l r ihl ihr =>
    rcases isBST_node.1 hb with ⟨hal, har, hbl, hbr⟩
    simp only [getKeys, List.mem_append, List.mem_cons, not_or] at hk
    obtain ⟨hkl, hkk, hkr⟩ := hk
    by_cases hlt : k < k0
    · rw [insertFn, if_pos hlt]
      exact isBST_node.2 ⟨all_insertFn hal (decide_eq_true hlt), har, ihl hbl hkl, hbr⟩
    · have hgt : k0 < k := lt_of_le_of_ne (not_lt.1 hlt) (Ne.symm hkk)
      rw [insertFn, if_neg hlt]
      exact isBST_node.2 ⟨hal, all_insertFn har (decide_eq_true hgt), hbl, ihr hbr hkr⟩

theorem toKVArray_insertFn (t : BST) (k : Int) (v : JSVal) :
    (toKVArray (insertFn t k v)).Perm ((k, v) :: toKVArray t) := by
  induction t with
  | nil => simp [insertFn, toKVArray]
  | node k0 v0 l r ihl ihr =>
    by_cases hlt : k < k0
    · rw [insertFn, if_pos hlt]
      simp only [toKVArray]
      exact ihl.append_right _
    · rw [insertFn, if_neg hlt]
      simp only [toKVArray]
      refine ((ihr.cons (k0, v0)).append_left (toKVArray l)).trans ?_
      have h := @List.perm_middle _ (k, v) (toKVArray l ++ [(k0, v0)]) (toKVArray r)
      simpa using h

end BST

namespace BST

/-! ### Deletion -/

theorem toKVArray_leftmost {t : BST} (h : t ≠ .nil) :
    toKVArray t = leftmostKV t :: toKVArray (removeLeftmost t) := by
  induction t with
  | nil => exact absurd rfl h
  | node k v l r ihl ihr =>
    cases l with
    | nil => simp [toKVArray, leftmostKV, removeLeftmost]
    | node lk lv ll lr =>
      rw [toKVArray, ihl nofun]
      simp [toKVArray, leftmostKV, removeLeftmost]

theorem leftmost_mem {t : BST} (h : t ≠ .nil) : (leftmostKV t).1 ∈ getKeys t := by
  rw [getKeys_eq_map, toKVArray_leftmost h]
  simp

theorem all_removeLeftmost {p : Int → Bool} {t : BST} (h : all p t = true) :
    all p (removeLeftmost t) = true := by
  induction t with
  | nil => simpa using h
  | node k v l r ihl ihr =>
    simp only [all, Bool.and_eq_true] at h
    obtain ⟨⟨hk, hl⟩, hr⟩ := h
    cases l with
    | nil => simpa [removeLeftmost] using hr
    | node lk lv ll lr =>
      simp only [removeLeftmost, all, Bool.and_eq_true]
      exact ⟨⟨hk, ihl hl⟩, hr⟩

theorem isBST_removeLeftmost {t : BST} (h : isBST t = true) :
    isBST (removeLeftmost t) = true := by
  induction t with
  | nil => simpa using h
  | node k v l r ihl ihr =>
    rcases isBST_node.1 h with ⟨hal, har, hbl, hbr⟩
    cases l with
    | nil => simpa [removeLeftmost] using hbr
    | node lk lv ll lr =>
      rw [removeLeftmost]
      exact isBST_node.2 ⟨all_removeLeftmost hal, har, ihl hbl, hbr⟩

theorem leftmost_lt_removeLeftmost {t : BST} (hb : isBST t = true) (hn : t ≠ .nil) :
    all (fun x => decide ((leftmostKV t).1 < x)) (removeLeftmost t) = true := by
  induction t with
  | nil => exact absurd rfl hn
  | node k v l r ihl ihr =>
    rcases isBST_node.1 hb with ⟨hal, har, hbl, hbr⟩
    cases l with
    | nil => simpa [removeLeftmost, leftmostKV] using har
    | node lk lv ll lr =>
      simp only [removeLeftmost, leftmostKV, all, Bool.and_eq_true]
      have hlml : (leftmostKV (node lk lv ll lr)).1 < k :=
        of_decide_eq_true (all_eq_true.1 hal _ (leftmost_mem nofun))
      refine ⟨⟨decide_eq_true hlml, ihl hbl nofun⟩, ?_⟩
      apply all_eq_true.2
      intro x hx
      exact decide_eq_true (hlml.trans (of_decide_eq_true (all_eq_true.1 har x hx)))

/-- The Case-2 replacement subtree (both children of the matched node
present) keeps the invariant and introduces no new keys. -/
theorem spliced_spec {k : Int} {v : JSVal} {l r : BST}
    (hb : isBST (.node k v l r) = true) (hr : r ≠ .nil) :
    isBST (.node (leftmostKV r).1 (leftmostKV r).2 l (removeLeftmost r)) = true ∧
    ∀ q : Int → Bool, all q (.node k v l r) = true →
      all q (.node (leftmostKV r).1 (leftmostKV r).2 l (removeLeftmost r)) = true := by
  rcases isBST_node.1 hb with ⟨hal, har, hbl, hbr⟩
  have hks : k < (leftmostKV r).1 :=
    of_decide_eq_true (all_eq_true.1 har _ (leftmost_mem hr))
  constructor
  · refine isBST_node.2 ⟨?_, leftmost_lt_removeLeftmost hbr hr, hbl, isBST_removeLeftmost hbr⟩
    apply all_eq_true.2
    intro x hx
    exact decide_eq_true ((of_decide_eq_true (all_eq_true.1 hal x hx)).trans hks)
  · intro q hq
    simp only [all, Bool.and_eq_true] at hq ⊢
    obtain ⟨⟨hk, hl⟩, hrq⟩ := hq
    exact ⟨⟨all_eq_true.1 hrq _ (leftmost_mem hr), hl⟩, all_removeLeftmost hrq⟩

/-- The replacement subtree of a matched non-root node keeps the
invariant and introduces no new keys. -/
theorem spliceKV_preserves {k : Int} {v : JSVal} {l r : BST}
    (hb : isBST (.node k v l r) = true) :
    isBST (spliceKV k v l r).2 = true ∧
    ∀ q : Int → Bool, all q (.node k v l r) = true → all q (spliceKV k v l r).2 = true := by
  rcases isBST_node.1 hb with ⟨hal, har, hbl, hbr⟩
  cases l with
  | nil =>
    refine ⟨hbr, fun q hq => ?_⟩
    simp only [all, Bool.and_eq_true] at hq
    exact hq.2
  | node lk lv ll lr =>
    cases r with
    | nil =>
      refine ⟨hbl, fun q hq => ?_⟩
      simp only [all, Bool.and_eq_true] at hq
      rw [spliceKV]
      simp only [all, Bool.and_eq_true]
      exact hq.1.2
    | node rk rv rl rr =>
      exact spliced_spec hb nofun

theorem deleteSub_not_found {t : BST} {key : Int} (h : key ∉ getKeys t) :
    deleteSub t key = none := by
  induction t with
  | nil => rfl
  | node k v l r ihl ihr =>
    simp only [getKeys, List.mem_append, List.mem_cons, not_or] at h
    obtain ⟨hl, hk, hr⟩ := h
    rw [deleteSub, if_neg (fun hh => hk hh.symm)]
    by_cases hlt : key < k
    · rw [if_pos hlt, ihl hl]
    · rw [if_neg hlt, ihr hr]

theorem deleteSub_preserves {t : BST} {key : Int} {p : Int × JSVal} {t' : BST}
    (hb : isBST t = true) (h : deleteSub t key = some (p, t')) :
    isBST t' = true ∧ ∀ q : Int → Bool, all q t = true → all q t' = true := by
  induction t generalizing p t' with
  | nil => simp [deleteSub] at h
  | node k v l r ihl ihr =>
    rcases isBST_node.1 hb with ⟨hal, har, hbl, hbr⟩
    rw [deleteSub] at h
    by_cases hk : k = key
    · rw [if_pos hk] at h
      simp only [Option.some.injEq] at h
      have ht' : t' = (spliceKV k v l r).2 := by rw [h]
      have hs := spliceKV_preserves hb
      exact ⟨ht' ▸ hs.1, fun q hq => ht' ▸ hs.2 q hq⟩
    · rw [if_neg hk] at h
      by_cases hlt : key < k
      · rw [if_pos hlt] at h
        cases hsub : deleteSub l key with
        | none => rw [hsub] at h; simp at h
        | some pl =>
          rw [hsub] at h
          obtain ⟨pp, l'⟩ := pl
          simp only [Option.some.injEq, Prod.mk.injEq] at h
          obtain ⟨hp, ht'⟩ := h
          have ih := ihl hbl hsub
          subst ht'
          refine ⟨isBST_node.2 ⟨ih.2 _ hal, har, ih.1, hbr⟩, fun q hq => ?_⟩
          simp only [all, Bool.and_eq_true] at hq ⊢
          exact ⟨⟨hq.1.1, ih.2 q hq.1.2⟩, hq.2⟩
      · rw [if_neg hlt] at h
        cases hsub : deleteSub r key with
        | none => rw [hsub] at h; simp at h
        | some pr =>
          rw [hsub] at h
          obtain ⟨pp, r'⟩ := pr
          simp only [Option.some.injEq, Prod.mk.injEq] at h
          obtain ⟨hp, ht'⟩ := h
          have ih := ihr hbr hsub
          subst ht'
          refine ⟨isBST_node.2 ⟨hal, ih.2 _ har, hbl, ih.1⟩, fun q hq => ?_⟩
          simp only [all, Bool.and_eq_true] at hq ⊢
          exact ⟨⟨hq.1.1, hq.1.2⟩, ih.2 q hq.2⟩

theorem delete_not_found {t : BST} {key : Int} (h : key ∉ getKeys t) :
    delete t key = .ok (none, t) := by
  cases t with
  | nil => rfl
  | node k v l r =>
    simp only [getKeys, List.mem_append, List.mem_cons, not_or] at h
    obtain ⟨hl, hk, hr⟩ := h
    rw [delete, if_neg (fun hh => hk hh.symm)]
    by_cases hlt : key < k
    · rw [if_pos hlt, deleteSub_not_found hl]
    · rw [if_neg hlt, deleteSub_not_found hr]

theorem deleteRoot_preserves {k : Int} {v : JSVal} {l r : BST}
    {res : Option (Int × JSVal)} {t' : BST}
    (hb : isBST (.node k v l r) = true) (h : deleteRoot k v l r = .ok (res, t')) :
    isBST t' = true := by
  rcases isBST_node.1 hb with ⟨hal, har, hbl, hbr⟩
  cases l with
  | nil =>
    cases r with
    | nil => simp [deleteRoot] at h
    | node rk rv rl rr =>
      rw [deleteRoot] at h
      simp only [Except.ok.injEq, Prod.mk.injEq] at h
      exact h.2 ▸ hbr
  | node lk lv ll lr =>
    cases r with
    | nil =>
      rw [deleteRoot] at h
      simp only [Except.ok.injEq, Prod.mk.injEq] at h
      exact h.2 ▸ hbl
    | node rk rv rl rr =>
      rw [deleteRoot] at h
      simp only [Except.ok.injEq, Prod.mk.injEq] at h
      exact h.2 ▸ (spliced_spec hb nofun).1

theorem delete_preserves {t : BST} {key : Int} {res : Option (Int × JSVal)} {t' : BST}
    (hb : isBST t = true) (h : delete t key = .ok (res, t')) : isBST t' = true := by
  cases t with
  | nil =>
    simp only [delete, Except.ok.injEq, Prod.mk.injEq] at h
    exact h.2 ▸ rfl
  | node k v l r =>
    rcases isBST_node.1 hb with ⟨hal, har, hbl, hbr⟩
    rw [delete] at h
    by_cases hk : k = key
    · rw [if_pos hk] at h
      exact deleteRoot_preserves hb h
    · rw [if_neg hk] at h
      by_cases hlt : key < k
      · rw [if_pos hlt] at h
        cases hsub : deleteSub l key with
        | none =>
          rw [hsub] at h
          simp only [Except.ok.injEq, Prod.mk.injEq] at h
          exact h.2 ▸ hb
        | some pl =>
          rw [hsub] at h
          obtain ⟨pp, l'⟩ := pl
          simp only [Except.ok.injEq, Prod.mk.injEq] at h
          have ih := deleteSub_preserves hbl hsub
          exact h.2 ▸ isBST_node.2 ⟨ih.2 _ hal, har, ih.1, hbr⟩
      · rw [if_neg hlt] at h
        cases hsub : deleteSub r key with
        | none =>
          rw [hsub] at h
          simp only [Except.ok.injEq, Prod.mk.injEq] at h
          exact h.2 ▸ hb
        | some pr =>
          rw [hsub] at h
          obtain ⟨pp, r'⟩ := pr
          simp only [Except.ok.injEq, Prod.mk.injEq] at h
          have ih := deleteSub_preserves hbr hsub
          exact h.2 ▸ isBST_node.2 ⟨hal, ih.2 _ har, hbl, ih.1⟩

/-! ### Operation sequences -/

theorem applyOp_preserves {t : BST} (op : Op) (hb : isBST t = true) :
    isBST (applyOp t op) = true := by
  cases op with
  | ins k v =>
    rw [applyOp]
    by_cases hk : k ∈ getKeys t
    · rw [insert_error hb hk]
      exact hb
    · rw [insert_eq_ok hk]
      exact isBST_insertFn hb hk
  | del k =>
    rw [applyOp]
    cases hdel : delete t k with
    | error e => exact hb
    | ok p =>
      obtain ⟨res, t'⟩ := p
      exact delete_preserves hb hdel

theorem applyOps_preserves {t : BST} (ops : List Op) (hb : isBST t = true) :
    isBST (applyOps t ops) = true := by
  induction ops generalizing t with
  | nil => exact hb
  | cons op ops ih => exact ih (applyOp_preserves op hb)

end BST

namespace BST

/-! ### Lookup and update -/

theorem key_mem_of_pair_mem {t : BST} {k : Int} {v : JSVal}
    (h : (k, v) ∈ toKVArray t) : k ∈ getKeys t := by
  rw [getKeys_eq_map]
  exact List.mem_map_of_mem Prod.fst h

theorem getValue_found {t : BST} (hb : isBST t = true) {k : Int} {v : JSVal}
    (h : (k, v) ∈ toKVArray t) : getValue t k = v := by
  induction t with
  | nil => simp [toKVArray] at h
  | node k0 v0 l r ihl ihr =>
    rcases isBST_node.1 hb with ⟨hal, har, hbl, hbr⟩
    simp only [toKVArray, List.mem_append, List.mem_cons] at h
    by_cases hk0 : k0 = k
    · rw [getValue, if_pos hk0]
      rcases h with h | h | h
      · have := of_decide_eq_true (all_eq_true.1 hal k (key_mem_of_pair_mem h))
        omega
      · exact (Prod.mk.injEq .. ▸ h).2.symm
      · have := of_decide_eq_true (all_eq_true.1 har k (key_mem_of_pair_mem h))
        omega
    · rw [getValue, if_neg hk0]
      by_cases hlt : k < k0
      · rw [if_pos hlt]
        rcases h with h | h | h
        · exact ihl hbl h
        · exact absurd (Prod.mk.injEq .. ▸ h).1.symm hk0
        · have := of_decide_eq_true (all_eq_true.1 har k (key_mem_of_pair_mem h))
          omega
      · rw [if_neg hlt]
        rcases h with h | h | h
        · have := of_decide_eq_true (all_eq_true.1 hal k (key_mem_of_pair_mem h))
          omega
        · exact absurd (Prod.mk.injEq .. ▸ h).1.symm hk0
        · exact ihr hbr h

theorem getValue_not_found {t : BST} {k : Int} (h : k ∉ getKeys t) :
    getValue t k = .undef := by
  induction t with
  | nil => rfl
  | node k0 v0 l r ihl ihr =>
    simp only [getKeys, List.mem_append, List.mem_cons, not_or] at h
    obtain ⟨hl, hk, hr⟩ := h
    rw [getValue, if_neg (fun hh => hk hh.symm)]
    by_cases hlt : k < k0
    · rw [if_pos hlt, ihl hl]
    · rw [if_neg hlt, ihr hr]

theorem update_not_found {t : BST} {k : Int} {nv : JSVal} (h : k ∉ getKeys t) :
    update t k nv = (.undef, t) := by
  induction t with
  | nil => rfl
  | node k0 v0 l r ihl ihr =>
    simp only [getKeys, List.mem_append, List.mem_cons, not_or] at h
    obtain ⟨hl, hk, hr⟩ := h
    rw [update, if_neg (fun hh => hk hh.symm)]
    by_cases hlt : k < k0
    · rw [if_pos hlt, ihl hl]
    · rw [if_neg hlt, ihr hr]

theorem map_id_of_mem {α : Type} {f : α → α} {L : List α}
    (h : ∀ x ∈ L, f x = x) : L.map f = L := by
  induction L with
  | nil => rfl
  | cons x xs ih =>
    rw [List.map_cons, h x (List.mem_cons_self x xs), ih (fun y hy => h y (List.mem_cons_of_mem x hy))]

theorem update_found {t : BST} (hb : isBST t = true) {k : Int} {v nv : JSVal}
    (h : (k, v) ∈ toKVArray t) :
    (update t k nv).1 = v ∧
    toKVArray (update t k nv).2 =
      (toKVArray t).map (fun p => if p.1 = k then (k, nv) else p) := by
  induction t with
  | nil => simp [toKVArray] at h
  | node k0 v0 l r ihl ihr =>
    rcases isBST_node.1 hb with ⟨hal, har, hbl, hbr⟩
    simp only [toKVArray, List.mem_append, List.mem_cons] at h
    have hmapl_id : k ∉ getKeys l →
        (toKVArray l).map (fun p => if p.1 = k then (k, nv) else p) = toKVArray l := by
      intro hnk
      apply map_id_of_mem
      intro p hp
      have hpm : p.1 ∈ getKeys l := by
        rw [getKeys_eq_map]
        exact List.mem_map_of_mem Prod.fst hp
      rw [if_neg (fun hh : p.1 = k => hnk (hh ▸ hpm))]
    have hmapr_id : k ∉ getKeys r →
        (toKVArray r).map (fun p => if p.1 = k then (k, nv) else p) = toKVArray r := by
      intro hnk
      apply map_id_of_mem
      intro p hp
      have hpm : p.1 ∈ getKeys r := by
        rw [getKeys_eq_map]
        exact List.mem_map_of_mem Prod.fst hp
      rw [if_neg (fun hh : p.1 = k => hnk (hh ▸ hpm))]
    by_cases hk0 : k0 = k
    · subst hk0
      have hvl : k0 ∉ getKeys l := fun hm =>
        absurd (of_decide_eq_true (all_eq_true.1 hal k0 hm)) (lt_irrefl k0)
      have hvr : k0 ∉ getKeys r := fun hm =>
        absurd (of_decide_eq_true (all_eq_true.1 har k0 hm)) (lt_irrefl k0)
      have hv : v = v0 := by
        rcases h with h | h | h
        · exact absurd (key_mem_of_pair_mem h) hvl
        · exact (Prod.mk.injEq .. ▸ h).2
        · exact absurd (key_mem_of_pair_mem h) hvr
      rw [update, if_pos rfl]
      subst hv
      refine ⟨rfl, ?_⟩
      simp only [toKVArray, List.map_append, List.map_cons, if_pos]
      rw [hmapl_id hvl, hmapr_id hvr]
    · rw [update, if_neg hk0]
      by_cases hlt : k < k0
      · have hm : (k, v) ∈ toKVArray l := by
          rcases h with h | h | h
          · exact h
          · exact absurd (Prod.mk.injEq .. ▸ h).1.symm hk0
          · have := of_decide_eq_true (all_eq_true.1 har k (key_mem_of_pair_mem h))
            omega
        have ih := ihl hbl hm
        rw [if_pos hlt]
        refine ⟨ih.1, ?_⟩
        have hvr : k ∉ getKeys r := fun hmem =>
          absurd (of_decide_eq_true (all_eq_true.1 har k hmem)) (by omega)
        simp only [toKVArray, List.map_append, List.map_cons]
        rw [ih.2, hmapr_id hvr, if_neg (by simpa using hk0)]
      · have hm : (k, v) ∈ toKVArray r := by
          rcases h with h | h | h
          · have := of_decide_eq_true (all_eq_true.1 hal k (key_mem_of_pair_mem h))
            omega
          · exact absurd (Prod.mk.injEq .. ▸ h).1.symm hk0
          · exact h
        have ih := ihr hbr hm
        rw [if_neg hlt]
        refine ⟨ih.1, ?_⟩
        have hvl : k ∉ getKeys l := fun hmem => by
          have := of_decide_eq_true (all_eq_true.1 hal k hmem)
          omega
        simp only [toKVArray, List.map_append, List.map_cons]
        rw [ih.2, hmapl_id hvl, if_neg (by simpa using hk0)]

theorem eraseValues_update (t : BST) (k : Int) (nv : JSVal) :
    eraseValues (update t k nv).2 = eraseValues t := by
  induction t with
  | nil => rfl
  | node k0 v0 l r ihl ihr =>
    by_cases hk0 : k0 = k
    · rw [update, if_pos hk0]
      simp [eraseValues]
    · rw [update, if_neg hk0]
      by_cases hlt : k < k0
      · rw [if_pos hlt]
        simp only [eraseValues, ihl]
      · rw [if_neg hlt]
        simp only [eraseValues, ihr]

end BST

namespace BST

/-! ### Building a tree by repeated insertion -/

theorem getKeys_insertFn_perm (t : BST) (k : Int) (v : JSVal) :
    (getKeys (insertFn t k v)).Perm (k :: getKeys t) := by
  rw [getKeys_eq_map, getKeys_eq_map]
  exact (toKVArray_insertFn t k v).map Prod.fst

theorem build_loop (ps : List (Int × JSVal)) :
    ∀ t : BST, isBST t = true → (∀ p ∈ ps, p.1 ∉ getKeys t) →
      (ps.map Prod.fst).Nodup →
      isBST (applyOps t (ps.map fun p => Op.ins p.1 p.2)) = true ∧
      (toKVArray (applyOps t (ps.map fun p => Op.ins p.1 p.2))).Perm
        (ps ++ toKVArray t) := by
  induction ps with
  | nil => exact fun t hb _ _ => ⟨hb, by simp [applyOps]⟩
  | cons p rest ih =>
    intro t hb hdisj hnd
    obtain ⟨k, v⟩ := p
    have hk : k ∉ getKeys t := hdisj (k, v) (List.mem_cons_self _ _)
    have hstep : applyOp t (Op.ins k v) = insertFn t k v := by
      rw [applyOp, insert_eq_ok hk]
    have hops : applyOps t (((k, v) :: rest).map fun p => Op.ins p.1 p.2) =
        applyOps (insertFn t k v) (rest.map fun p => Op.ins p.1 p.2) := by
      simp only [List.map_cons, applyOps, List.foldl_cons, hstep]
    rw [hops]
    simp only [List.map_cons, List.nodup_cons] at hnd
    have hdisj' : ∀ q ∈ rest, q.1 ∉ getKeys (insertFn t k v) := by
      intro q hq hmem
      have hiff := (getKeys_insertFn_perm t k v).mem_iff.1 hmem
      rcases List.mem_cons.1 hiff with hqk | hqt
      · exact hnd.1 (hqk ▸ List.mem_map_of_mem Prod.fst hq)
      · exact hdisj q (List.mem_cons_of_mem _ hq) hqt
    have ihr := ih (insertFn t k v) (isBST_insertFn hb hk) hdisj' hnd.2
    refine ⟨ihr.1, ihr.2.trans ?_⟩
    refine ((toKVArray_insertFn t k v).append_left rest).trans ?_
    exact List.perm_middle

/-! ### Balance -/

theorem size_eq_length (t : BST) : size t = (toKVArray t).length := by
  induction t with
  | nil => rfl
  | node k v l r ihl ihr => simp [size, toKVArray, ihl, ihr]; omega

theorem balanceHelper_height (s : List (Int × JSVal)) :
    ∀ (n : Nat) (f la : Int), (la + 1 - f).toNat = n →
      height (balanceHelper s f la) = Nat.clog 2 (n + 1) := by
  intro n
  induction n using Nat.strong_induction_on with
  | _ n ih =>
    intro f la hn
    rw [balanceHelper]
    by_cases hfl : f > la
    · rw [if_pos hfl]
      have hn0 : n = 0 := by omega
      rw [hn0, height, Nat.clog_one_right]
    · rw [if_neg hfl]
      have hn1 : 1 ≤ n := by omega
      have hlsz : ((la - f + 1) / 2 + f - 1 + 1 - f).toNat = n / 2 := by omega
      have hrsz : (la + 1 - ((la - f + 1) / 2 + f + 1)).toNat = (n - 1) / 2 := by omega
      have hlt1 : n / 2 < n := by omega
      have hlt2 : (n - 1) / 2 < n := by omega
      rw [height, ih (n / 2) hlt1 f ((la - f + 1) / 2 + f - 1) hlsz,
        ih ((n - 1) / 2) hlt2 ((la - f + 1) / 2 + f + 1) la hrsz]
      have hmax : max (Nat.clog 2 (n / 2 + 1)) (Nat.clog 2 ((n - 1) / 2 + 1)) =
          Nat.clog 2 (n / 2 + 1) :=
        Nat.max_eq_left (Nat.clog_mono_right 2 (by omega))
      rw [hmax, Nat.clog_of_two_le (by omega) (by omega : 2 ≤ n + 1)]
      have : (n + 1 + 2 - 1) / 2 = n / 2 + 1 := by omega
      rw [this]

theorem balanceHelper_toKV (s : List (Int × JSVal)) :
    ∀ (n : Nat) (f la : Int), 0 ≤ f → la < s.length → (la + 1 - f).toNat = n →
      toKVArray (balanceHelper s f la) = (s.drop f.toNat).take n := by
  intro n
  induction n using Nat.strong_induction_on with
  | _ n ih =>
    intro f la hf hla hn
    rw [balanceHelper]
    by_cases hfl : f > la
    · rw [if_pos hfl]
      have hn0 : n = 0 := by omega
      rw [hn0, toKVArray, List.take_zero]
    · rw [if_neg hfl]
      have hn1 : 1 ≤ n := by omega
      have hm0 : 0 ≤ (la - f + 1) / 2 + f := by omega
      have hmla : (la - f + 1) / 2 + f ≤ la := by omega
      have hmlen : ((la - f + 1) / 2 + f).toNat < s.length := by omega
      have hlsz : ((la - f + 1) / 2 + f - 1 + 1 - f).toNat =
          (((la - f + 1) / 2 + f).toNat - f.toNat) := by omega
      have hrsz : (la + 1 - ((la - f + 1) / 2 + f + 1)).toNat =
          n - (((la - f + 1) / 2 + f).toNat - f.toNat) - 1 := by omega
      have hlt1 : ((la - f + 1) / 2 + f).toNat - f.toNat < n := by omega
      have hlt2 : n - (((la - f + 1) / 2 + f).toNat - f.toNat) - 1 < n := by omega
      rw [toKVArray,
        ih _ hlt1 f ((la - f + 1) / 2 + f - 1) hf (by omega) hlsz,
        ih _ hlt2 ((la - f + 1) / 2 + f + 1) la (by omega) hla hrsz]
      have hgetD : s.getD ((la - f + 1) / 2 + f).toNat (0, .undef) =
          s.get ⟨((la - f + 1) / 2 + f).toNat, hmlen⟩ := by
        rw [List.getD_eq_getElem s (0, .undef) hmlen]
        rfl
      rw [hgetD]
      have hdropm : s.drop (((la - f + 1) / 2 + f).toNat) =
          s.get ⟨((la - f + 1) / 2 + f).toNat, hmlen⟩ :: s.drop (((la - f + 1) / 2 + f).toNat + 1) := by
        rw [List.drop_eq_getElem_cons hmlen]
        rfl
      have hdrop1 : (s.drop f.toNat).drop (((la - f + 1) / 2 + f).toNat - f.toNat) =
          s.drop (((la - f + 1) / 2 + f).toNat) := by
        rw [List.drop_drop]
        congr 1
        omega
      have hdrop2 : ((la - f + 1) / 2 + f + 1).toNat = ((la - f + 1) / 2 + f).toNat + 1 := by
        omega
      have hnsplit : n = (((la - f + 1) / 2 + f).toNat - f.toNat) +
          (1 + (n - (((la - f + 1) / 2 + f).toNat - f.toNat) - 1)) := by omega
      conv_rhs => rw [hnsplit, List.take_add]
      rw [hdrop1, hdropm, hdrop2, Prod.mk.eta,
        Nat.add_comm 1 (n - (((la - f + 1) / 2 + f).toNat - f.toNat) - 1),
        List.take_succ_cons]

theorem toKVArray_balance (t : BST) : toKVArray (balance t) = toKVArray t := by
  rw [balance]
  rw [balanceHelper_toKV (toKVArray t) (toKVArray t).length 0
    ((toKVArray t).length - 1) le_rfl (by omega) (by omega)]
  simp

theorem height_balance (t : BST) :
    height (balance t) = Nat.clog 2 (size t + 1) := by
  rw [balance, balanceHelper_height (toKVArray t) (size t) 0
    ((toKVArray t).length - 1) (by rw [size_eq_length]; omega)]

end BST

namespace BST

/-! ### The claims -/

/-- Claim C1, refuted at the failing input (code bug): on the tree with
root key 5 (value "v5") whose only child is the right child 6 (value
"v6") — a root with exactly one child — `delete(5)` returns the pair
`(6, "v6")` of the in-order successor that takes the root's place,
not the pair `(5, "v5")` of the logically removed node that the claim
(and the method's own documentation) requires.  The slip: in the root
special case the source captures `matchData` only after the root has
been overwritten with the successor's key and value (`src/BST.js`
lines 389-403), unlike Case 2 which captures it before (line 420). -/
theorem C1_delete_root_one_child_returns_successor_pair :
    delete (.node 5 (.str "v5") .nil (.node 6 (.str "v6") .nil .nil)) 5 =
      .ok (some (6, .str "v6"), .node 6 (.str "v6") .nil .nil) := rfl

/-- Claim C2 counterexample: deleting the root of a single-node tree
does not turn the tree handle into an empty tree — the code throws
`"Deleting root node when no other nodes exist is undefined."`. -/
theorem C2_counterexample_childless_root_delete_throws :
    delete (.node 1 (.str "a") .nil .nil) 1 =
      .error "Deleting root node when no other nodes exist is undefined." := rfl

/-- Claim C2 as amended: deleting the root when it has no children
throws an error (the implementation has no empty-tree representation,
so neither "the tree handle becomes empty" nor "delete on an empty
tree" can occur); deleting a root with exactly one child promotes that
child to root (the returned pair being the promoted child's, see C1);
and delete of a key absent from a (nonempty) tree returns null ("not
found") without error and leaves the tree unchanged. -/
theorem C2_amended_root_delete_cases (k : Int) (v : JSVal) (l r t : BST) (key : Int) :
    delete (.node k v .nil .nil) k =
      .error "Deleting root node when no other nodes exist is undefined." ∧
    (l ≠ .nil → delete (.node k v l .nil) k = .ok (some (rootKV l), l)) ∧
    (r ≠ .nil → delete (.node k v .nil r) k = .ok (some (rootKV r), r)) ∧
    (t ≠ .nil → key ∉ getKeys t → delete t key = .ok (none, t)) := by
  refine ⟨?_, ?_, ?_, ?_⟩
  · rw [delete, if_pos rfl]
    rfl
  · intro hl
    cases l with
    | nil => exact absurd rfl hl
    | node lk lv ll lr =>
      rw [delete, if_pos rfl]
      rfl
  · intro hr
    cases r with
    | nil => exact absurd rfl hr
    | node rk rv rl rr =>
      rw [delete, if_pos rfl]
      rfl
  · intro _ hk
    exact delete_not_found hk

/-- Witness for C2: the amended statement evaluated at concrete
inputs — a root with a single left child is promoted, and deleting an
absent key reports "not found" and keeps the tree. -/
theorem C2_amended_witness :
    delete (.node 5 (.str "a") (.node 3 (.str "b") .nil .nil) .nil) 5 =
      .ok (some (3, .str "b"), .node 3 (.str "b") .nil .nil) ∧
    delete (.node 5 (.str "a") .nil .nil) 9 =
      .ok (none, .node 5 (.str "a") .nil .nil) :=
  ⟨(C2_amended_root_delete_cases 5 (.str "a") (.node 3 (.str "b") .nil .nil)
      .nil .nil 9).2.1 (by decide),
   (C2_amended_root_delete_cases 5 (.str "a") .nil .nil
      (.node 5 (.str "a") .nil .nil) 9).2.2.2 (by decide) (by decide)⟩

/-- Claim C3: starting from any tree satisfying the invariant, after
any sequence of insert and delete operations invariant I1 (`isBST`:
every node's left subtree holds only strictly smaller keys, its right
subtree only strictly larger ones) still holds, the in-order key
traversal is strictly ascending, and the keys are unique (I2). -/
theorem C3_invariant_preservation (t : BST) (ops : List Op) (hb : isBST t = true) :
    isBST (applyOps t ops) = true ∧
    List.Sorted (· < ·) (getKeys (applyOps t ops)) ∧
    (getKeys (applyOps t ops)).Nodup := by
  have h1 := applyOps_preserves ops hb
  have h2 := sorted_getKeys h1
  exact ⟨h1, h2, h2.nodup⟩

/-- Witness for C3: a concrete run of inserts and deletes (including a
duplicate insert and a delete of the root) keeps the invariant. -/
theorem C3_witness :
    isBST (applyOps (.node 5 (.str "v5") .nil .nil)
      [.ins 3 (.str "v3"), .ins 8 (.str "v8"), .ins 3 (.str "dup"),
       .del 5, .ins 1 .null, .del 8]) = true ∧
    List.Sorted (· < ·) (getKeys (applyOps (.node 5 (.str "v5") .nil .nil)
      [.ins 3 (.str "v3"), .ins 8 (.str "v8"), .ins 3 (.str "dup"),
       .del 5, .ins 1 .null, .del 8])) ∧
    (getKeys (applyOps (.node 5 (.str "v5") .nil .nil)
      [.ins 3 (.str "v3"), .ins 8 (.str "v8"), .ins 3 (.str "dup"),
       .del 5, .ins 1 .null, .del 8])).Nodup :=
  C3_invariant_preservation (.node 5 (.str "v5") .nil .nil)
    [.ins 3 (.str "v3"), .ins 8 (.str "v8"), .ins 3 (.str "dup"),
     .del 5, .ins 1 .null, .del 8] (by decide)

/-- Claim C4: inserting a key that already exists anywhere in the tree
fails with the duplicate-key error (raised by the equality check `curr.key
=== node.key` on the descent path) and the tree is left exactly
unchanged. -/
theorem C4_duplicate_insert_rejected (t : BST) (k : Int) (v : JSVal)
    (hb : isBST t = true) (hk : k ∈ getKeys t) :
    insert t k v = .error (toString k ++ " is not a unique key.") ∧
    applyOp t (.ins k v) = t :=
  ⟨insert_error hb hk, by rw [applyOp, insert_error hb hk]⟩

/-- Witness for C4: inserting the duplicate key 3 into a two-node tree
raises the duplicate-key error and leaves the tree unchanged. -/
theorem C4_witness :
    insert (.node 5 .null (.node 3 .null .nil .nil) .nil) 3 (.str "x") =
      .error "3 is not a unique key." ∧
    applyOp (.node 5 .null (.node 3 .null .nil .nil) .nil) (.ins 3 (.str "x")) =
      .node 5 .null (.node 3 .null .nil .nil) .nil :=
  C4_duplicate_insert_rejected (.node 5 .null (.node 3 .null .nil .nil) .nil)
    3 (.str "x") (by decide) (by decide)

/-- Claim C5: `balance` returns a tree whose in-order pairs are
identical (same pairs, same order) to the original's, and whose height
is `ceil(log2(n + 1))` (`Nat.clog 2 (n + 1)`) for `n` nodes; the
midpoint choice `m = first + ceil((last - first) / 2)` is the
`balanceHelper` definition itself, and in this functional embedding
the original tree is untouched and all nodes of the result are newly
built by construction. -/
theorem C5_balance_height_and_pairs (t : BST) :
    toKVArray (balance t) = toKVArray t ∧
    height (balance t) = Nat.clog 2 (size t + 1) :=
  ⟨toKVArray_balance t, height_balance t⟩

/-- Claim C6: `toKVArray` on a tree built by inserting a list of pairs
with pairwise-distinct keys (in that arbitrary order) yields exactly
the inserted pairs, sorted strictly ascending by key, with one entry
per insertion. -/
theorem C6_build_roundtrip (ps : List (Int × JSVal))
    (hnd : (ps.map Prod.fst).Nodup) :
    (toKVArray (buildTree ps)).Perm ps ∧
    List.Pairwise (fun p q : Int × JSVal => p.1 < q.1) (toKVArray (buildTree ps)) ∧
    (toKVArray (buildTree ps)).length = ps.length := by
  cases ps with
  | nil => simp [buildTree, toKVArray]
  | cons p rest =>
    obtain ⟨k, v⟩ := p
    rw [buildTree]
    simp only [List.map_cons, List.nodup_cons] at hnd
    have hb0 : isBST (.node k v .nil .nil) = true := by simp [isBST, all]
    have hdisj : ∀ q ∈ rest, q.1 ∉ getKeys (.node k v .nil .nil) := by
      intro q hq hmem
      simp only [getKeys, List.nil_append, List.mem_cons, List.not_mem_nil, or_false] at hmem
      exact hnd.1 (hmem ▸ List.mem_map_of_mem Prod.fst hq)
    have hloop := build_loop rest (.node k v .nil .nil) hb0 hdisj hnd.2
    have hperm : (toKVArray (applyOps (.node k v .nil .nil)
        (rest.map fun p => Op.ins p.1 p.2))).Perm ((k, v) :: rest) := by
      refine hloop.2.trans ?_
      have : toKVArray (.node k v .nil .nil) = [(k, v)] := rfl
      rw [this]
      exact List.perm_append_singleton _ _
    have hsorted := sorted_getKeys hloop.1
    rw [getKeys_eq_map] at hsorted
    exact ⟨hperm, (List.pairwise_map.1 hsorted : _), hperm.length_eq⟩

/-- Witness for C6: building from three pairs in non-sorted order
returns exactly those pairs sorted by key. -/
theorem C6_witness :
    (toKVArray (buildTree [(5, JSVal.str "v5"), (3, JSVal.str "v3"),
      (8, JSVal.str "v8")])).Perm
      [(5, JSVal.str "v5"), (3, JSVal.str "v3"), (8, JSVal.str "v8")] ∧
    List.Pairwise (fun p q : Int × JSVal => p.1 < q.1)
      (toKVArray (buildTree [(5, JSVal.str "v5"), (3, JSVal.str "v3"),
        (8, JSVal.str "v8")])) ∧
    (toKVArray (buildTree [(5, JSVal.str "v5"), (3, JSVal.str "v3"),
      (8, JSVal.str "v8")])).length =
      [(5, JSVal.str "v5"), (3, JSVal.str "v3"), (8, JSVal.str "v8")].length :=
  C6_build_roundtrip [(5, JSVal.str "v5"), (3, JSVal.str "v3"),
    (8, JSVal.str "v8")] (by decide)

/-- Claim C7: on a tree satisfying the invariant, `getValue` returns
the value stored with the matching key when one exists, and the
`undefined` "not found" result when no node matches; it is a pure
function (the tree is not part of its result type), and for a numeric
key no exception path exists. -/
theorem C7_getValue_spec (t : BST) (k : Int) (v : JSVal) (hb : isBST t = true) :
    ((k, v) ∈ toKVArray t → getValue t k = v) ∧
    (k ∉ getKeys t → getValue t k = JSVal.undef) :=
  ⟨fun h => getValue_found hb h, fun h => getValue_not_found h⟩

/-- Witness for C7: on the spec's scenario shape, `getValue 5` returns
the stored value and `getValue 100` (absent) returns `undefined`. -/
theorem C7_witness :
    getValue (.node 5 (.str "v5") (.node 3 (.str "v3") .nil .nil)
      (.node 8 (.str "v8") .nil .nil)) 5 = .str "v5" ∧
    getValue (.node 5 (.str "v5") (.node 3 (.str "v3") .nil .nil)
      (.node 8 (.str "v8") .nil .nil)) 100 = .undef :=
  ⟨(C7_getValue_spec (.node 5 (.str "v5") (.node 3 (.str "v3") .nil .nil)
      (.node 8 (.str "v8") .nil .nil)) 5 (.str "v5") (by decide)).1 (by decide),
   (C7_getValue_spec (.node 5 (.str "v5") (.node 3 (.str "v3") .nil .nil)
      (.node 8 (.str "v8") .nil .nil)) 100 .null (by decide)).2 (by decide)⟩

/-- Claim C8: on a tree satisfying the invariant, `update` on a
matching key returns the previous value and replaces exactly that
node's value; on a missing key it returns `undefined` and the
unchanged tree; and in every case the key skeleton (shape and keys,
`eraseValues`) is unchanged — no node is created. -/
theorem C8_update_spec (t : BST) (k : Int) (v nv : JSVal) (hb : isBST t = true) :
    ((k, v) ∈ toKVArray t → (update t k nv).1 = v ∧
      toKVArray (update t k nv).2 =
        (toKVArray t).map (fun p => if p.1 = k then (k, nv) else p)) ∧
    (k ∉ getKeys t → update t k nv = (JSVal.undef, t)) ∧
    eraseValues (update t k nv).2 = eraseValues t :=
  ⟨fun h => update_found hb h, fun h => update_not_found h, eraseValues_update t k nv⟩

/-- Witness for C8: updating key 3 returns the old value "v3" and
rewrites only that pair; updating absent key 9 reports "not found" and
returns the tree unchanged. -/
theorem C8_witness :
    (update (.node 5 (.str "v5") (.node 3 (.str "v3") .nil .nil) .nil)
      3 (.str "new")).1 = .str "v3" ∧
    update (.node 5 (.str "v5") (.node 3 (.str "v3") .nil .nil) .nil)
      9 (.str "new") =
      (JSVal.undef, .node 5 (.str "v5") (.node 3 (.str "v3") .nil .nil) .nil) :=
  ⟨((C8_update_spec (.node 5 (.str "v5") (.node 3 (.str "v3") .nil .nil) .nil)
      3 (.str "v3") (.str "new") (by decide)).1 (by decide)).1,
   (C8_update_spec (.node 5 (.str "v5") (.node 3 (.str "v3") .nil .nil) .nil)
      9 .null (.str "new") (by decide)).2.1 (by decide)⟩

/-- Claim C9 counterexample: `undefined` can be stored as a value
through `update`, after which a successful `getValue` on the present
key 5 returns exactly the same result as `getValue` on the absent key
100 — the "not found" result is not distinguishable from every
storable value. -/
theorem C9_counterexample_stored_undefined :
    (update (.node 5 JSVal.null .nil .nil) 5 .undef).2 =
      .node 5 .undef .nil .nil ∧
    (5 : Int) ∈ getKeys (.node 5 JSVal.undef .nil .nil) ∧
    (100 : Int) ∉ getKeys (.node 5 JSVal.undef .nil .nil) ∧
    getValue (.node 5 JSVal.undef .nil .nil) 5 =
      getValue (.node 5 JSVal.undef .nil .nil) 100 := by decide

/-- Claim C9 as amended: delete's "not found" (null) is distinguishable
from its success result (an object) by construction; for
`getValue`/`update` the "not found" result `undefined` is
distinguishable from every stored value except `undefined` itself
(which `update` can store); the constructor's default never stores
`undefined` (it becomes `null`). -/
theorem C9_amended_not_found_distinguishable (t : BST) (k : Int) (v nv : JSVal)
    (hb : isBST t = true) :
    ((k, v) ∈ toKVArray t → v ≠ .undef → getValue t k ≠ .undef) ∧
    ((k, v) ∈ toKVArray t → v ≠ .undef → (update t k nv).1 ≠ .undef) ∧
    getValue (mkBST k v) k ≠ .undef ∧
    (k ∉ getKeys t → delete t k = .ok (none, t)) := by
  refine ⟨fun h hv => ?_, fun h hv => ?_, ?_, fun h => delete_not_found h⟩
  · rw [getValue_found hb h]
    exact hv
  · rw [(update_found hb h).1]
    exact hv
  · rw [mkBST, getValue, if_pos rfl]
    by_cases hu : v = .undef
    · rw [if_pos hu]
      exact fun hh => JSVal.noConfusion hh
    · rw [if_neg hu]
      exact hu

/-- Witness for C9: with a non-`undefined` stored value "a", both
`getValue` and `update` report something distinguishable from "not
found"; the constructor called with `undefined` stores `null`; delete
of an absent key yields the null result with the tree intact. -/
theorem C9_amended_witness :
    getValue (.node 5 (.str "a") .nil .nil) 5 ≠ .undef ∧
    getValue (mkBST 7 .undef) 7 ≠ .undef ∧
    delete (.node 5 (.str "a") .nil .nil) 9 =
      .ok (none, .node 5 (.str "a") .nil .nil) :=
  ⟨(C9_amended_not_found_distinguishable (.node 5 (.str "a") .nil .nil)
      5 (.str "a") .null (by decide)).1 (by decide) (by decide),
   (C9_amended_not_found_distinguishable (.node 5 (.str "a") .nil .nil)
      7 .undef .null (by decide)).2.2.1,
   (C9_amended_not_found_distinguishable (.node 5 (.str "a") .nil .nil)
      9 .null .null (by decide)).2.2.2 (by decide)⟩

/-- Claim C10: `add` validates its argument shape first: for `null`,
`undefined`, any object missing one of the own properties
key/value/left/right, or any object whose key is not a number, it
throws "Only valid for BST nodes." independently of the tree; and
whenever validation passes the argument is a well-formed node object
with a numeric key, which is what gets attached by the descent. -/
theorem C10_add_argument_validation (t : BST) (arg : AddArg) :
    (validNode arg = false → addChecked t arg = .error "Only valid for BST nodes.") ∧
    (validNode arg = true → ∃ nk nv nl nr,
      arg = .obj true (.num nk) true nv true nl true nr ∧
      addChecked t arg = add t nk nv nl nr) := by
  cases arg with
  | jsNull => exact ⟨fun _ => rfl, fun h => by simp [validNode] at h⟩
  | jsUndef => exact ⟨fun _ => rfl, fun h => by simp [validNode] at h⟩
  | obj hasKey key hasValue nv hasLeft nl hasRight nr =>
    constructor
    · intro hinv
      cases hasKey with
      | false => rfl
      | true =>
        cases key with
        | num nk =>
          cases hasValue with
          | false => rfl
          | true =>
            cases hasLeft with
            | false => rfl
            | true =>
              cases hasRight with
              | false => rfl
              | true => simp [validNode, JSVal.isNumber] at hinv
        | undef => rfl
        | null => rfl
        | str s => rfl
    · intro hval
      cases hasKey with
      | false => simp [validNode] at hval
      | true =>
        cases key with
        | num nk =>
          cases hasValue with
          | false => simp [validNode, JSVal.isNumber] at hval
          | true =>
            cases hasLeft with
            | false => simp [validNode, JSVal.isNumber] at hval
            | true =>
              cases hasRight with
              | false => simp [validNode, JSVal.isNumber] at hval
              | true => exact ⟨nk, nv, nl, nr, rfl, rfl⟩
        | undef => simp [validNode, JSVal.isNumber] at hval
        | null => simp [validNode, JSVal.isNumber] at hval
        | str s => simp [validNode, JSVal.isNumber] at hval

/-- Witness for C10: a `null` argument and an object with a string key
are both rejected with the node-validation error before the tree is
consulted. -/
theorem C10_witness :
    addChecked .nil .jsNull = .error "Only valid for BST nodes." ∧
    addChecked (.node 5 .null .nil .nil)
      (.obj true (.str "k") true .null true .nil true .nil) =
      .error "Only valid for BST nodes." :=
  ⟨(C10_add_argument_validation .nil .jsNull).1 rfl,
   (C10_add_argument_validation (.node 5 .null .nil .nil)
      (.obj true (.str "k") true .null true .nil true .nil)).1 rfl⟩

end BST
